import Mathlib

/-!
Verification development for the regulatory-submission review frontend.

The definitions below are shallow embeddings of the TypeScript source:
* the checklist progress aggregator of `handleChecklistUpdate`
  (submission detail page);
* the SSE frame parser and consumer state machine of
  `StreamingGenerator.tsx`;
* the review-workflow client operations of the submission detail page.

JavaScript machine strings are embedded as `List Char` where character-level
buffer splitting matters and as `String` elsewhere; JavaScript numbers in the
relevant code paths are small non-negative integers, embedded as `Nat`
(for these magnitudes IEEE-754 double arithmetic is exact, and
`Math.round(s / n)` coincides with round-half-up on the exact rational,
i.e. with `(2*s + n) / (2*n)` in natural division).  Nullable fields are
embedded as `Option`.
-/

namespace WellDoc

/-! ## Checklist items and the progress aggregator

Embeds the checklist data model and the recomputation inside
`handleChecklistUpdate`:

```js
const applicable = newChecklist.filter((c) => c.is_applicable);
const prog = applicable.length
  ? Math.round(applicable.reduce((s, c) => s + (c.completeness_percent || 0), 0)
               / applicable.length)
  : 0;
```
-/

structure ChecklistItem where
  id : Nat
  section_number : Nat
  section_name : String
  is_applicable : Bool
  is_complete : Bool
  completeness_percent : Option Nat
  deficiency_level : Option String
  assignee : Option String
  reviewer_notes : Option String
deriving DecidableEq, Repr

/-- `c.completeness_percent || 0`: JavaScript coerces `null`/`undefined`
(and `0` itself) to `0`. -/
def completenessOrZero (c : ChecklistItem) : Nat :=
  c.completeness_percent.getD 0

/-- `newChecklist.filter((c) => c.is_applicable)`. -/
def applicableItems (checklist : List ChecklistItem) : List ChecklistItem :=
  checklist.filter (fun c => c.is_applicable)

/-- `applicable.reduce((s, c) => s + (c.completeness_percent || 0), 0)`. -/
def sumCompleteness (items : List ChecklistItem) : Nat :=
  items.foldl (fun s c => s + completenessOrZero c) 0

/-- `Math.round(s / n)` for non-negative integers `s`, `n > 0`:
round-half-up of the exact quotient. -/
def jsRoundDiv (s n : Nat) : Nat :=
  (2 * s + n) / (2 * n)

/-- The progress recomputation of `handleChecklistUpdate`. -/
def recomputeProgress (checklist : List ChecklistItem) : Nat :=
  let applicable := applicableItems checklist
  if applicable.length = 0 then 0
  else jsRoundDiv (sumCompleteness applicable) applicable.length

/-- The only data `recomputeProgress` can depend on for one item:
whether it is applicable, and (when applicable) its coerced completeness. -/
def normKey (c : ChecklistItem) : Bool × Nat :=
  (c.is_applicable, if c.is_applicable then completenessOrZero c else 0)

theorem sumCompleteness_foldl (items : List ChecklistItem) (a : Nat) :
    items.foldl (fun s c => s + completenessOrZero c) a
      = a + sumCompleteness items := by
  induction items generalizing a with
  | nil => simp [sumCompleteness]
  | cons x xs ih =>
      simp only [List.foldl_cons, sumCompleteness] at *
      rw [ih, ih (0 + completenessOrZero x)]
      omega

theorem applicableItems_map_eq (l₁ l₂ : List ChecklistItem)
    (h : l₁.map normKey = l₂.map normKey) :
    (applicableItems l₁).map normKey = (applicableItems l₂).map normKey := by
  induction l₁ generalizing l₂ with
  | nil =>
      have : l₂ = [] := by
        cases l₂ with
        | nil => rfl
        | cons y ys => simp at h
      subst this; rfl
  | cons x xs ih =>
      cases l₂ with
      | nil => simp at h
      | cons y ys =>
          simp only [List.map_cons, List.cons.injEq] at h
          obtain ⟨hxy, hrest⟩ := h
          have happ : x.is_applicable = y.is_applicable := by
            have := congrArg Prod.fst hxy
            simpa [normKey] using this
          by_cases hx : x.is_applicable
          · have hy : y.is_applicable = true := by rw [← happ]; exact hx
            simp only [applicableItems, List.filter_cons, hx, hy, if_pos,
              List.map_cons]
            exact List.cons_eq_cons.mpr ⟨hxy, ih ys hrest⟩
          · have hy : y.is_applicable = false := by
              rw [← happ]; simpa using hx
            have hx' : x.is_applicable = false := by simpa using hx
            simpa [applicableItems, List.filter_cons, hx', hy]
              using ih ys hrest

theorem sumCompleteness_eq_of_map (l₁ l₂ : List ChecklistItem)
    (h : (applicableItems l₁).map normKey = (applicableItems l₂).map normKey) :
    sumCompleteness (applicableItems l₁) = sumCompleteness (applicableItems l₂) := by
  have key : ∀ (a b : List ChecklistItem),
      (∀ c ∈ a, c.is_applicable = true) → (∀ c ∈ b, c.is_applicable = true) →
      a.map normKey = b.map normKey → sumCompleteness a = sumCompleteness b := by
    intro a
    induction a with
    | nil =>
        intro b _ _ h
        cases b with
        | nil => rfl
        | cons y ys => simp at h
    | cons x xs ih =>
        intro b hxa hb h
        cases b with
        | nil => simp at h
        | cons y ys =>
            simp only [List.map_cons, List.cons.injEq] at h
            obtain ⟨hxy, hrest⟩ := h
            have hx : x.is_applicable = true := hxa x (by simp)
            have hy : y.is_applicable = true := hb y (by simp)
            have hcz : completenessOrZero x = completenessOrZero y := by
              have := congrArg Prod.snd hxy
              simpa [normKey, hx, hy] using this
            simp only [sumCompleteness, List.foldl_cons]
            rw [sumCompleteness_foldl, sumCompleteness_foldl]
            have hxy' : sumCompleteness xs = sumCompleteness ys :=
              ih ys (fun c hc => hxa c (List.mem_cons_of_mem _ hc))
                (fun c hc => hb c (List.mem_cons_of_mem _ hc)) hrest
            rw [hcz, hxy']
  exact key _ _
    (fun c hc => by
      have := List.of_mem_filter hc
      simpa using this)
    (fun c hc => by
      have := List.of_mem_filter hc
      simpa using this) h

/-- `recomputeProgress` depends only on the per-item normal keys. -/
theorem recomputeProgress_congr (l₁ l₂ : List ChecklistItem)
    (h : l₁.map normKey = l₂.map normKey) :
    recomputeProgress l₁ = recomputeProgress l₂ := by
  have hmap := applicableItems_map_eq l₁ l₂ h
  have hlen : (applicableItems l₁).length = (applicableItems l₂).length := by
    have := congrArg List.length hmap
    simpa using this
  have hsum := sumCompleteness_eq_of_map l₁ l₂ hmap
  simp only [recomputeProgress, hlen, hsum]

/-- A checklist item with the fields the aggregator inspects set explicitly. -/
def sampleItem (i : Nat) (app : Bool) (pct : Option Nat) : ChecklistItem :=
  { id := i, section_number := i, section_name := "Section", is_applicable := app,
    is_complete := false, completeness_percent := pct, deficiency_level := none,
    assignee := none, reviewer_notes := none }

/-- Concrete scenario A: 20 items, 18 applicable, completeness values
summing to 1440 (18 items at 80 percent each). -/
def scenarioAChecklist : List ChecklistItem :=
  ((List.range 18).map (fun i => sampleItem i true (some 80)))
    ++ [sampleItem 18 false (some 0), sampleItem 19 false (some 100)]

/-- C1: the progress recomputation filters to `is_applicable` items; the empty
filtered set yields 0; otherwise the result is the round-half-up mean
(characterized by `2*n*r ≤ 2*s + n < 2*n*(r+1)`); for scenario A (20 items,
18 applicable summing to 1440) the result is 80. -/
theorem checklist_recompute_round_half_up_mean :
    (∀ checklist : List ChecklistItem,
      (applicableItems checklist = [] → recomputeProgress checklist = 0)
      ∧ (applicableItems checklist ≠ [] →
          recomputeProgress checklist
              = jsRoundDiv (sumCompleteness (applicableItems checklist))
                  (applicableItems checklist).length
            ∧ 2 * (applicableItems checklist).length * recomputeProgress checklist
                ≤ 2 * sumCompleteness (applicableItems checklist)
                    + (applicableItems checklist).length
            ∧ 2 * sumCompleteness (applicableItems checklist)
                  + (applicableItems checklist).length
                < 2 * (applicableItems checklist).length
                    * (recomputeProgress checklist + 1)))
    ∧ scenarioAChecklist.length = 20
    ∧ (applicableItems scenarioAChecklist).length = 18
    ∧ sumCompleteness (applicableItems scenarioAChecklist) = 1440
    ∧ recomputeProgress scenarioAChecklist = 80 := by
  refine ⟨fun checklist => ⟨?_, ?_⟩, by decide, by decide, by decide, by decide⟩
  · intro hempty
    simp [recomputeProgress, hempty]
  · intro hne
    set s := sumCompleteness (applicableItems checklist) with hs
    set n := (applicableItems checklist).length with hn
    have hnpos : 0 < n := by
      rw [hn]
      exact List.length_pos.mpr hne
    have hrec : recomputeProgress checklist = jsRoundDiv s n := by
      simp only [recomputeProgress, ← hs, ← hn]
      rw [if_neg (by omega)]
    refine ⟨hrec, ?_, ?_⟩
    · rw [hrec]
      simp only [jsRoundDiv]
      calc 2 * n * ((2 * s + n) / (2 * n))
          = (2 * s + n) / (2 * n) * (2 * n) := by ring
        _ ≤ 2 * s + n := Nat.div_mul_le_self _ _
    · rw [hrec]
      simp only [jsRoundDiv]
      have hd : 2 * n * ((2 * s + n) / (2 * n)) + (2 * s + n) % (2 * n)
          = 2 * s + n := Nat.div_add_mod _ _
      have hm : (2 * s + n) % (2 * n) < 2 * n :=
        Nat.mod_lt _ (by omega)
      calc 2 * s + n
          = 2 * n * ((2 * s + n) / (2 * n)) + (2 * s + n) % (2 * n) := hd.symm
        _ < 2 * n * ((2 * s + n) / (2 * n)) + 2 * n :=
            Nat.add_lt_add_left hm _
        _ = 2 * n * ((2 * s + n) / (2 * n) + 1) := by ring

/-- Witness for C1: the empty checklist recomputes to 0, and scenario A
recomputes to 80. -/
theorem checklist_recompute_round_half_up_mean_witness :
    recomputeProgress [] = 0 ∧ recomputeProgress scenarioAChecklist = 80 :=
  ⟨(checklist_recompute_round_half_up_mean.1 []).1 rfl,
    checklist_recompute_round_half_up_mean.2.2.2.2⟩

/-- C7: an item with `is_applicable = false` is dropped by the filter, so the
recomputed progress does not depend on its stored `completeness_percent`:
replacing that value by anything else leaves the result unchanged. -/
theorem recompute_independent_of_excluded_completeness
    (pre post : List ChecklistItem) (it : ChecklistItem) (v : Option Nat)
    (h : it.is_applicable = false) :
    recomputeProgress (pre ++ { it with completeness_percent := v } :: post)
      = recomputeProgress (pre ++ it :: post) := by
  apply recomputeProgress_congr
  simp [normKey, h]

/-- Witness for C7: an excluded item stored at 100 percent versus 0 percent
yields the identical overall progress. -/
theorem recompute_independent_of_excluded_completeness_witness :
    recomputeProgress
        [sampleItem 0 true (some 40), sampleItem 1 false (some 100)]
      = recomputeProgress
        [sampleItem 0 true (some 40), sampleItem 1 false (some 0)] :=
  recompute_independent_of_excluded_completeness
    [sampleItem 0 true (some 40)] [] (sampleItem 1 false (some 0))
    (some 100) rfl

/-- C10: an applicable item whose `completeness_percent` is missing is coerced
to 0 by `(c.completeness_percent || 0)`, so the overall progress equals that of
the same checklist with the value explicitly set to 0. -/
theorem recompute_missing_completeness_counts_as_zero
    (pre post : List ChecklistItem) (it : ChecklistItem)
    (h : it.completeness_percent = none) :
    recomputeProgress (pre ++ it :: post)
      = recomputeProgress
          (pre ++ { it with completeness_percent := some 0 } :: post) := by
  apply recomputeProgress_congr
  simp [normKey, completenessOrZero, h]

/-- Witness for C10: a checklist with one applicable item missing its
completeness value recomputes exactly as with the value 0. -/
theorem recompute_missing_completeness_counts_as_zero_witness :
    recomputeProgress [sampleItem 0 true (some 60), sampleItem 1 true none]
      = recomputeProgress
          [sampleItem 0 true (some 60), sampleItem 1 true (some 0)] :=
  recompute_missing_completeness_counts_as_zero
    [sampleItem 0 true (some 60)] [] (sampleItem 1 true none) rfl

/-! ## SSE frame parsing in `startGeneration`

Embeds the read loop of `StreamingGenerator.tsx`:

```js
buffer += decoder.decode(value, { stream: true });
const parts = buffer.split('\n\n');
buffer = parts.pop() ?? '';
for (const part of parts) { ... }
```

`splitNN` is `String.prototype.split('\n\n')`: greedy leftmost splitting on
the two-character delimiter, embedded on `List Char`. -/

/-- Prepend a character to the first segment of a split result. -/
def consFst (c : Char) : List (List Char) → List (List Char)
  | [] => [[c]]
  | s :: ss => (c :: s) :: ss

/-- `buffer.split('\n\n')`: split on the blank-line delimiter, leftmost
match first, matches disjoint. -/
def splitNN : List Char → List (List Char)
  | '\n' :: '\n' :: rest => [] :: splitNN rest
  | c :: rest => consFst c (splitNN rest)
  | [] => [[]]

/-- The loop body's `parts = buffer.split('\n\n'); buffer = parts.pop()`
fused into one recursion: completed frames plus the retained trailing
segment. -/
def splitNNp : List Char → List (List Char) × List Char
  | '\n' :: '\n' :: rest =>
      let r := splitNNp rest
      ([] :: r.1, r.2)
  | c :: rest =>
      let r := splitNNp rest
      match r.1 with
      | [] => ([], c :: r.2)
      | m :: ms => ((c :: m) :: ms, r.2)
  | [] => ([], [])

theorem consFst_ne_nil (c : Char) (l : List (List Char)) : consFst c l ≠ [] := by
  cases l <;> simp [consFst]

theorem splitNN_ne_nil (x : List Char) : splitNN x ≠ [] := by
  induction x using splitNN.induct with
  | case1 rest ih => simp [splitNN]
  | case2 c rest h ih => simp [splitNN, consFst_ne_nil, h]
  | case3 => simp [splitNN]

/-- `splitNNp` is `split('\n\n')` followed by popping the trailing segment. -/
theorem splitNNp_eq_splitNN (x : List Char) :
    splitNNp x = ((splitNN x).dropLast, (splitNN x).getLastD []) := by
  induction x using splitNN.induct with
  | case1 rest ih =>
      obtain ⟨m, ms, hms⟩ := List.exists_cons_of_ne_nil (splitNN_ne_nil rest)
      simp [splitNNp, splitNN, ih, hms]
  | case2 c rest h ih =>
      obtain ⟨m, ms, hms⟩ := List.exists_cons_of_ne_nil (splitNN_ne_nil rest)
      cases ms with
      | nil => simp [splitNNp, splitNN, h, ih, hms, consFst]
      | cons m2 ms' => simp [splitNNp, splitNN, h, ih, hms, consFst]
  | case3 => simp [splitNNp, splitNN]

/-- If a string holds no complete frame, its retained trailing segment is
the whole string. -/
theorem splitNNp_fst_nil (x : List Char) (h : (splitNNp x).1 = []) :
    (splitNNp x).2 = x := by
  induction x using splitNNp.induct with
  | case1 rest ih => simp [splitNNp] at h
  | case2 c rest hpat r hr1 ih =>
      have hr : (splitNNp rest).1 = [] := hr1
      have h2 : (splitNNp rest).2 = rest := ih hr
      simp [splitNNp, hr, h2]
  | case3 c rest hpat r m ms hr1 ih =>
      have hr : (splitNNp rest).1 = m :: ms := hr1
      simp [splitNNp, hr] at h
  | case4 => simp [splitNNp]

/-- The trailing segment retained by the split never holds a complete frame. -/
theorem splitNNp_snd_no_frame (x : List Char) :
    (splitNNp ((splitNNp x).2)).1 = [] := by
  induction x using splitNNp.induct with
  | case1 rest ih =>
      simp only [splitNNp.eq_1]
      exact ih
  | case2 c rest hpat r hr1 ih =>
      have hr : (splitNNp rest).1 = [] := hr1
      have h2 := splitNNp_fst_nil rest hr
      have hsa : splitNNp (c :: rest) = ([], c :: rest) := by
        rw [splitNNp.eq_2 c rest hpat, hr, h2]
      simp [hsa]
  | case3 c rest hpat r m ms hr1 ih =>
      have hr : (splitNNp rest).1 = m :: ms := hr1
      have hsa : splitNNp (c :: rest) = ((c :: m) :: ms, (splitNNp rest).2) := by
        rw [splitNNp.eq_2 c rest hpat, hr]
      simpa [hsa] using ih
  | case4 => simp [splitNNp]

/-- Splitting is a state machine over the retained trailing segment: splitting
`a ++ b` yields the complete frames of `a` followed by those of `a`'s trailing
segment prepended to `b`. -/
theorem splitNNp_append (a b : List Char) :
    splitNNp (a ++ b)
      = ((splitNNp a).1 ++ (splitNNp ((splitNNp a).2 ++ b)).1,
         (splitNNp ((splitNNp a).2 ++ b)).2) := by
  induction a using splitNNp.induct with
  | case1 rest ih =>
      rw [show ('\n' :: '\n' :: rest) ++ b = '\n' :: '\n' :: (rest ++ b) from rfl]
      simp only [splitNNp.eq_1]
      rw [ih]
      simp
  | case2 c rest hpat r hr1 ih =>
      have hr : (splitNNp rest).1 = [] := hr1
      have h2 := splitNNp_fst_nil rest hr
      have hsa : splitNNp (c :: rest) = ([], c :: rest) := by
        rw [splitNNp.eq_2 c rest hpat, hr, h2]
      rw [hsa]
      simp
  | case3 c rest hpat r m ms hr1 ih =>
      have hr : (splitNNp rest).1 = m :: ms := hr1
      have hsa : splitNNp (c :: rest) = ((c :: m) :: ms, (splitNNp rest).2) := by
        rw [splitNNp.eq_2 c rest hpat, hr]
      cases rest with
      | nil => simp [splitNNp] at hr
      | cons d rs =>
          have hcond : ∀ (r' : List Char),
              c = '\n' → (d :: rs) ++ b = '\n' :: r' → False := by
            intro r' hc heq
            rw [List.cons_append] at heq
            have hd : d = '\n' := by
              have := List.cons_eq_cons.mp heq
              exact this.1
            exact hpat rs hc (by rw [hd])
          rw [show (c :: d :: rs) ++ b = c :: ((d :: rs) ++ b) from rfl]
          rw [splitNNp.eq_2 c ((d :: rs) ++ b) hcond, ih, hr, hsa]
          simp
  | case4 => simp [splitNNp]

/-- One iteration of the read loop:
`buffer += chunk; parts = buffer.split('\n\n'); buffer = parts.pop()`:
returns the complete frames and the retained buffer. -/
def feed (buffer chunk : List Char) : List (List Char) × List Char :=
  let parts := splitNN (buffer ++ chunk)
  (parts.dropLast, parts.getLastD [])

theorem feed_eq_splitNNp (buffer chunk : List Char) :
    feed buffer chunk = splitNNp (buffer ++ chunk) :=
  (splitNNp_eq_splitNN (buffer ++ chunk)).symm

/-- Running the read loop over a sequence of reads, starting from `buffer`:
returns all complete frames in order and the final retained buffer. -/
def feedAll (buffer : List Char) : List (List Char) → List (List Char) × List Char
  | [] => ([], buffer)
  | c :: cs =>
      let r := feed buffer c
      let r' := feedAll r.2 cs
      (r.1 ++ r'.1, r'.2)

theorem feedAll_join (chunks : List (List Char)) :
    ∀ buffer : List Char, (splitNNp buffer).1 = [] →
      feedAll buffer chunks = splitNNp (buffer ++ chunks.flatten) := by
  induction chunks with
  | nil =>
      intro buffer h
      have h2 := splitNNp_fst_nil buffer h
      simp only [feedAll, List.flatten_nil, List.append_nil]
      exact Prod.ext h.symm h2.symm
  | cons c cs ih =>
      intro buffer h
      simp only [feedAll, feed_eq_splitNNp]
      rw [ih _ (splitNNp_snd_no_frame (buffer ++ c))]
      rw [List.flatten_cons, ← List.append_assoc,
        splitNNp_append (buffer ++ c) cs.flatten]

/-! ## SSE events and per-frame payload extraction

Embeds the `SSEEvent` interface of `StreamingGenerator.tsx` and the per-part
loop:

```js
const lines = part.split('\n');
for (const line of lines) {
  if (!line.startsWith('data: ')) continue;
  const raw = line.slice('data: '.length).trim();
  if (!raw) continue;
  let event; try { event = JSON.parse(raw); } catch { continue; }
  handleEvent(event);
}
```

`JSON.parse` is a JavaScript builtin (an external collaborator); theorems are
stated for every payload parser `parse : List Char → Option SSEEvent`, where
`none` is a parse failure (the `catch { continue }` path). -/

inductive SSEEventType
  | started | progress | chunk | completed | error
deriving DecidableEq, Repr

structure SSEEvent where
  type : SSEEventType
  message : Option String := none
  percent : Option Nat := none
  text : Option String := none
  compliance_score : Option Nat := none
  compliant : Option Bool := none
deriving DecidableEq, Repr

/-- `part.split('\n')`. -/
def splitNl : List Char → List (List Char)
  | '\n' :: rest => [] :: splitNl rest
  | c :: rest => consFst c (splitNl rest)
  | [] => [[]]

/-- The whitespace class removed by `String.prototype.trim`. -/
def isJsSpace (c : Char) : Bool :=
  c = ' ' || c = '\t' || c = '\n' || c = '\r'

/-- `line.trim()`. -/
def jsTrim (s : List Char) : List Char :=
  ((s.dropWhile isJsSpace).reverse.dropWhile isJsSpace).reverse

/-- The non-empty trimmed payloads of the `data: `-marked lines of one part. -/
def extractRaws (part : List Char) : List (List Char) :=
  (splitNl part).filterMap fun line =>
    if "data: ".toList.isPrefixOf line then
      let raw := jsTrim (line.drop "data: ".toList.length)
      if raw = [] then none else some raw
    else none

/-- The events one part contributes, given the payload parser. -/
def eventsOfPart (parse : List Char → Option SSEEvent) (part : List Char) :
    List SSEEvent :=
  (extractRaws part).filterMap parse

/-- The events a list of parts contributes, in order. -/
def eventsOfParts (parse : List Char → Option SSEEvent)
    (parts : List (List Char)) : List SSEEvent :=
  (parts.map (eventsOfPart parse)).flatten

/-- C3: feeding the same byte stream in one read or split across N successive
reads yields the identical (frames, retained buffer) pair, hence the identical
sequence of parsed events for every payload parser: the trailing incomplete
segment is retained, never discarded or mis-parsed. -/
theorem frame_parsing_restartable (chunks : List (List Char))
    (parse : List Char → Option SSEEvent) :
    feedAll [] chunks = feedAll [] [chunks.flatten]
    ∧ eventsOfParts parse (feedAll [] chunks).1
        = eventsOfParts parse (feedAll [] [chunks.flatten]).1 := by
  have h0 : (splitNNp ([] : List Char)).1 = [] := rfl
  have hmain : feedAll [] chunks = feedAll [] [chunks.flatten] := by
    rw [feedAll_join chunks [] h0, feedAll_join [chunks.flatten] [] h0]
    simp
  exact ⟨hmain, by rw [hmain]⟩

/-! ## The consumer state machine of `StreamingGenerator.tsx` -/

inductive GenerationPhase
  | idle | connecting | running | completed | error | cancelled
deriving DecidableEq, Repr

/-- The React component state of `StreamingGenerator` plus the local variables
of the read loop (`buffer`) and the run bookkeeping (`streaming`: the read
loop is alive; `aborted`: `abortRef.current.abort()` has been called). -/
structure ConsumerState where
  phase : GenerationPhase
  percent : Nat
  statusMessage : String
  streamedText : String
  complianceScore : Option Nat
  isCompliant : Option Bool
  errorMessage : String
  onCompleteCalled : Bool
  buffer : List Char
  streaming : Bool
  aborted : Bool
deriving DecidableEq, Repr

/-- The `handleEvent` dispatch of `StreamingGenerator.tsx`, one case per
event type; `onComplete()` is an external callback, recorded as a flag. -/
def handleEvent (st : ConsumerState) (e : SSEEvent) : ConsumerState :=
  match e.type with
  | .started =>
      { st with statusMessage := e.message.getD "Starting…", percent := 2 }
  | .progress =>
      let st1 := match e.percent with
        | some p => { st with percent := p }
        | none => st
      match e.message with
      | some m => if m = "" then st1 else { st1 with statusMessage := m }
      | none => st1
  | .chunk =>
      match e.text with
      | some t =>
          if t = "" then st
          else { st with streamedText := st.streamedText ++ t }
      | none => st
  | .completed =>
      { st with
        percent := 100
        phase := .completed
        statusMessage := e.message.getD "Generation complete!"
        complianceScore := (match e.compliance_score with
          | some v => some v
          | none => st.complianceScore)
        isCompliant := (match e.compliant with
          | some v => some v
          | none => st.isCompliant)
        onCompleteCalled := true }
  | .error =>
      { st with
        phase := .error
        errorMessage := e.message.getD "An unknown error occurred." }

/-- Processing a list of events in order. -/
def procEvents (st : ConsumerState) (evs : List SSEEvent) : ConsumerState :=
  evs.foldl handleEvent st

/-- Processing the events of a list of complete parts in order. -/
def procParts (parse : List Char → Option SSEEvent) (st : ConsumerState)
    (parts : List (List Char)) : ConsumerState :=
  procEvents st (eventsOfParts parse parts)

/-- The in-order concatenation of the text fields of the chunk events. -/
def chunkTexts : List SSEEvent → String
  | [] => ""
  | e :: rest =>
      (if e.type = .chunk then e.text.getD "" else "") ++ chunkTexts rest

theorem handleEvent_streamedText (st : ConsumerState) (e : SSEEvent) :
    (handleEvent st e).streamedText
      = st.streamedText ++ (if e.type = .chunk then e.text.getD "" else "") := by
  cases he : e.type with
  | chunk =>
      cases ht : e.text with
      | none => simp [handleEvent, he, ht, String.append_empty]
      | some t =>
          by_cases h0 : t = ""
          · simp [handleEvent, he, ht, h0, String.append_empty]
          · simp [handleEvent, he, ht, h0]
  | started => simp [handleEvent, he, String.append_empty]
  | progress =>
      cases hp : e.percent <;> cases hm : e.message
      · simp [handleEvent, he, hp, hm, String.append_empty]
      · rename_i m
        by_cases h0 : m = "" <;>
          simp [handleEvent, he, hp, hm, h0, String.append_empty]
      · simp [handleEvent, he, hp, hm, String.append_empty]
      · rename_i p m
        by_cases h0 : m = "" <;>
          simp [handleEvent, he, hp, hm, h0, String.append_empty]
  | completed => simp [handleEvent, he, String.append_empty]
  | error => simp [handleEvent, he, String.append_empty]

/-- The component's initial `useState` values, with an empty read-loop buffer
and no run in flight. -/
def initState : ConsumerState :=
  { phase := .idle
    percent := 0
    statusMessage := ""
    streamedText := ""
    complianceScore := none
    isCompliant := none
    errorMessage := ""
    onCompleteCalled := false
    buffer := []
    streaming := false
    aborted := false }

/-- The state right after `setPhase('running')` in `startGeneration`
(connection established, no event processed yet). -/
def runningState : ConsumerState :=
  { initState with
    phase := .running
    statusMessage := "Connecting to generation service…"
    streaming := true }

theorem procEvents_streamedText : ∀ (evs : List SSEEvent) (st : ConsumerState),
    (procEvents st evs).streamedText = st.streamedText ++ chunkTexts evs := by
  intro evs
  induction evs with
  | nil => intro st; simp [procEvents, chunkTexts, String.append_empty]
  | cons e rest ih =>
      intro st
      simp only [procEvents, List.foldl_cons]
      rw [show List.foldl handleEvent (handleEvent st e) rest
            = procEvents (handleEvent st e) rest from rfl]
      rw [ih, handleEvent_streamedText, chunkTexts, String.append_assoc]

/-- Concrete scenario B: `started`, `progress{percent:25}`, three chunks
`"Sec"`, `"tion 1"`, `"..."`, then
`completed{percent:100, compliance_score:92, compliant:true}`. -/
def scenarioBEvents : List SSEEvent :=
  [ { type := .started, message := some "Generation started" },
    { type := .progress, percent := some 25, message := some "Retrieving" },
    { type := .chunk, text := some "Sec" },
    { type := .chunk, text := some "tion 1" },
    { type := .chunk, text := some "..." },
    { type := .completed, percent := some 100, compliance_score := some 92,
      compliant := some true, message := some "Generation complete!" } ]

/-- C4: the accumulated chunk text equals the in-order concatenation of the
chunk events' text fields (no chunk reordered or dropped); for scenario B the
final state is completed, the text is `"Section 1..."`, and the compliance
score shown is 92. -/
theorem chunk_text_is_in_order_concatenation :
    (∀ (st : ConsumerState) (evs : List SSEEvent),
      (procEvents st evs).streamedText = st.streamedText ++ chunkTexts evs)
    ∧ (procEvents runningState scenarioBEvents).phase = .completed
    ∧ (procEvents runningState scenarioBEvents).streamedText = "Section 1..."
    ∧ (procEvents runningState scenarioBEvents).percent = 100
    ∧ (procEvents runningState scenarioBEvents).complianceScore = some 92 := by
  refine ⟨fun st evs => procEvents_streamedText evs st, ?_, ?_, ?_, ?_⟩ <;> decide

/-- C6: a frame whose payload fails to parse is silently skipped: it
contributes no events, leaves the consumer state (in particular the phase)
unchanged, and the event sequence equals that of the stream with the frame
removed. -/
theorem malformed_frame_silently_skipped
    (parse : List Char → Option SSEEvent) (p : List Char)
    (h : ∀ raw ∈ extractRaws p, parse raw = none) :
    eventsOfPart parse p = []
    ∧ ∀ (parts₁ parts₂ : List (List Char)) (st : ConsumerState),
        eventsOfParts parse (parts₁ ++ p :: parts₂)
          = eventsOfParts parse (parts₁ ++ parts₂)
        ∧ procParts parse st (parts₁ ++ p :: parts₂)
          = procParts parse st (parts₁ ++ parts₂) := by
  have hnil : eventsOfPart parse p = [] := List.filterMap_eq_nil_iff.mpr h
  refine ⟨hnil, fun parts₁ parts₂ st => ?_⟩
  have hev : eventsOfParts parse (parts₁ ++ p :: parts₂)
      = eventsOfParts parse (parts₁ ++ parts₂) := by
    simp [eventsOfParts, hnil]
  exact ⟨hev, by simp [procParts, hev]⟩

/-- Witness for C6: with a payload parser rejecting everything, a stray frame
contributes nothing and leaves the state exactly as without it. -/
theorem malformed_frame_silently_skipped_witness :
    eventsOfPart (fun _ => none) "data: x".toList = []
    ∧ procParts (fun _ => none) initState ["data: x".toList]
        = procParts (fun _ => none) initState [] := by
  have h : ∀ raw ∈ extractRaws "data: x".toList,
      (fun _ => (none : Option SSEEvent)) raw = none := by
    intro raw _
    rfl
  have hmain := malformed_frame_silently_skipped (fun _ => none) "data: x".toList h
  exact ⟨hmain.1, (hmain.2 [] [] initState).2⟩

/-! ## The per-run execution model of `startGeneration` / `handleCancel`

One generation attempt, driven by the steps below.  JavaScript is
single-threaded and the read loop awaits only between reads, so user actions
(`canc`) interleave only at await points; once `abort()` has been called the
pending `fetch`/`read()` promise rejects with `AbortError` (fetch semantics,
an external collaborator), embedded as the `abortReject` step and as the
`!aborted` guard on further reads. -/

inductive RunStep
  /-- The generate button (`startGeneration`), shown only while idle. -/
  | start
  /-- `fetch` resolved with an ok response carrying a body:
  `setPhase('running')`, the read loop begins. -/
  | respOk
  /-- `fetch` resolved non-ok (or no body): `throw` into the catch branch. -/
  | respErr (msg : String)
  /-- One successful `reader.read()` delivering a byte chunk. -/
  | readData (s : List Char)
  /-- `reader.read()` rejected with a non-abort error: catch branch. -/
  | readFail (msg : String)
  /-- The loop saw `done` and broke. -/
  | eof
  /-- The Cancel button (`handleCancel`), shown only while active. -/
  | canc
  /-- The pending await rejected with `AbortError` after an abort. -/
  | abortReject
deriving DecidableEq, Repr

/-- Guard of each step: the UI visibility conditions and the transport
semantics under which the step can occur. -/
def validStep (st : ConsumerState) : RunStep → Bool
  | .start => st.phase = .idle
  | .respOk => st.phase = .connecting
  | .respErr _ => st.phase = .connecting
  | .readData _ => st.streaming && !st.aborted
  | .readFail _ => st.streaming && !st.aborted
  | .eof => st.streaming && !st.aborted
  | .canc => st.phase = .connecting || st.phase = .running
  | .abortReject => st.aborted

/-- Effect of each step, straight from the component code. -/
def stepRun (parse : List Char → Option SSEEvent) (st : ConsumerState) :
    RunStep → ConsumerState
  | .start =>
      { st with
        phase := .connecting
        percent := 0
        statusMessage := "Connecting to generation service…"
        streamedText := ""
        errorMessage := ""
        complianceScore := none
        isCompliant := none
        buffer := []
        streaming := false
        aborted := false }
  | .respOk => { st with phase := .running, streaming := true }
  | .respErr msg =>
      { st with phase := .error, errorMessage := msg, streaming := false }
  | .readData s =>
      let r := feed st.buffer s
      procEvents { st with buffer := r.2 } (eventsOfParts parse r.1)
  | .readFail msg =>
      { st with phase := .error, errorMessage := msg, streaming := false }
  | .eof => { st with streaming := false }
  | .canc =>
      { st with
        phase := .cancelled
        statusMessage := "Cancelled by user."
        aborted := true }
  | .abortReject =>
      { st with
        phase := .cancelled
        statusMessage := "Generation cancelled."
        streaming := false }

def runSteps (parse : List Char → Option SSEEvent) (st : ConsumerState) :
    List RunStep → ConsumerState
  | [] => st
  | a :: rest => runSteps parse (stepRun parse st a) rest

def validTrace (parse : List Char → Option SSEEvent) (st : ConsumerState) :
    List RunStep → Bool
  | [] => true
  | a :: rest => validStep st a && validTrace parse (stepRun parse st a) rest

/-- The events one step delivers to `handleEvent`. -/
def evStep (parse : List Char → Option SSEEvent) (st : ConsumerState) :
    RunStep → List SSEEvent
  | .readData s => eventsOfParts parse (feed st.buffer s).1
  | _ => []

/-- The full event sequence a trace delivers, in order. -/
def evTrace (parse : List Char → Option SSEEvent) (st : ConsumerState) :
    List RunStep → List SSEEvent
  | [] => []
  | a :: rest => evStep parse st a ++ evTrace parse (stepRun parse st a) rest

theorem runSteps_append (parse : List Char → Option SSEEvent) :
    ∀ (a b : List RunStep) (st : ConsumerState),
      runSteps parse st (a ++ b) = runSteps parse (runSteps parse st a) b := by
  intro a
  induction a with
  | nil => intro b st; rfl
  | cons x xs ih =>
      intro b st
      simp only [List.cons_append, runSteps]
      exact ih b _

theorem validTrace_append (parse : List Char → Option SSEEvent) :
    ∀ (a b : List RunStep) (st : ConsumerState),
      validTrace parse st (a ++ b)
        = (validTrace parse st a && validTrace parse (runSteps parse st a) b) := by
  intro a
  induction a with
  | nil => intro b st; simp [validTrace, runSteps]
  | cons x xs ih =>
      intro b st
      simp only [List.cons_append, validTrace, runSteps]
      rw [show xs.append b = xs ++ b from rfl, ih, Bool.and_assoc]

/-- Once aborted with phase cancelled, every step a valid trace still permits
keeps the phase cancelled and never touches the accumulated text: the read
guards reject, so buffered frames are never processed. -/
theorem cancelled_stays (parse : List Char → Option SSEEvent) :
    ∀ (post : List RunStep) (st : ConsumerState),
      st.aborted = true → st.phase = .cancelled →
      validTrace parse st post = true →
      (runSteps parse st post).phase = .cancelled
      ∧ (runSteps parse st post).streamedText = st.streamedText := by
  intro post
  induction post with
  | nil => intro st ha hp _; exact ⟨hp, rfl⟩
  | cons a rest ih =>
      intro st ha hp hv
      simp only [validTrace, Bool.and_eq_true] at hv
      obtain ⟨hstep, hrest⟩ := hv
      cases a with
      | start => simp [validStep, hp] at hstep
      | respOk => simp [validStep, hp] at hstep
      | respErr msg => simp [validStep, hp] at hstep
      | readData s => simp [validStep, ha] at hstep
      | readFail msg => simp [validStep, ha] at hstep
      | eof => simp [validStep, ha] at hstep
      | canc => simp [validStep, hp] at hstep
      | abortReject =>
          have hnext := ih (stepRun parse st .abortReject)
            (by simp [stepRun, ha]) (by simp [stepRun]) hrest
          simpa [runSteps, stepRun] using hnext

/-- C2: for every run, a client cancellation makes the phase cancelled
immediately, and afterwards no event is processed even if already buffered:
the final phase stays cancelled (no completed event can override it) and the
accumulated text is exactly what it was at the moment of cancellation. -/
theorem cancellation_stops_event_processing
    (parse : List Char → Option SSEEvent) (pre post : List RunStep)
    (hv : validTrace parse initState (pre ++ RunStep.canc :: post) = true) :
    (stepRun parse (runSteps parse initState pre) RunStep.canc).phase
        = GenerationPhase.cancelled
    ∧ (runSteps parse initState (pre ++ RunStep.canc :: post)).phase
        = GenerationPhase.cancelled
    ∧ (runSteps parse initState (pre ++ RunStep.canc :: post)).streamedText
        = (runSteps parse initState pre).streamedText := by
  rw [validTrace_append parse pre (RunStep.canc :: post) initState,
    Bool.and_eq_true] at hv
  obtain ⟨hpre, hrest⟩ := hv
  simp only [validTrace, Bool.and_eq_true] at hrest
  obtain ⟨hcanc, hpost⟩ := hrest
  have h1 : (stepRun parse (runSteps parse initState pre) RunStep.canc).aborted
      = true := by simp [stepRun]
  have h2 : (stepRun parse (runSteps parse initState pre) RunStep.canc).phase
      = .cancelled := by simp [stepRun]
  have h3 : (stepRun parse (runSteps parse initState pre)
      RunStep.canc).streamedText
      = (runSteps parse initState pre).streamedText := by simp [stepRun]
  have hmain := cancelled_stays parse post _ h1 h2 hpost
  rw [runSteps_append parse pre (RunStep.canc :: post) initState]
  rw [show runSteps parse (runSteps parse initState pre) (RunStep.canc :: post)
        = runSteps parse
            (stepRun parse (runSteps parse initState pre) RunStep.canc) post
      from rfl]
  exact ⟨h2, hmain.1, hmain.2.trans h3⟩

/-- A small concrete payload parser for witnesses: `S` parses to a started
event, `C` to a chunk carrying `"abc"`, `D` to a completed event; everything
else fails to parse. -/
def toyParse (raw : List Char) : Option SSEEvent :=
  if raw = "S".toList then
    some { type := .started, message := some "Generation started" }
  else if raw = "C".toList then some { type := .chunk, text := some "abc" }
  else if raw = "D".toList then
    some { type := .completed, percent := some 100,
           compliance_score := some 92, compliant := some true }
  else none

/-- Witness for C2: a run that saw a started frame and has a chunk frame
still buffered is cancelled right after the started event; the buffered chunk
never mutates the text and the phase stays cancelled. -/
theorem cancellation_stops_event_processing_witness :
    (runSteps toyParse initState
        ([RunStep.start, RunStep.respOk,
          RunStep.readData "data: S\n\ndata: C".toList]
          ++ RunStep.canc :: [RunStep.abortReject])).phase
      = GenerationPhase.cancelled
    ∧ (runSteps toyParse initState
        ([RunStep.start, RunStep.respOk,
          RunStep.readData "data: S\n\ndata: C".toList]
          ++ RunStep.canc :: [RunStep.abortReject])).streamedText
      = (runSteps toyParse initState
          [RunStep.start, RunStep.respOk,
           RunStep.readData "data: S\n\ndata: C".toList]).streamedText := by
  have h := cancellation_stops_event_processing toyParse
      [RunStep.start, RunStep.respOk,
       RunStep.readData "data: S\n\ndata: C".toList]
      [RunStep.abortReject] (by decide)
  exact ⟨h.2.1, h.2.2⟩

/-! ## The phase transition relation of the consumer -/

/-- The phase `handleEvent` leaves the consumer in, as a function of the
phase before and the event. -/
def phaseAfterEvent (p : GenerationPhase) (e : SSEEvent) : GenerationPhase :=
  match e.type with
  | .completed => .completed
  | .error => .error
  | _ => p

/-- `completed` and `error` are the protocol's terminal events. -/
def isTerminalEvent (e : SSEEvent) : Bool :=
  e.type = .completed || e.type = .error

/-- A protocol-conformant event sequence: a terminal event, if any, is last
(the orchestrator stops emitting after `completed`/`error`). -/
def conformant (evs : List SSEEvent) : Bool :=
  evs.dropLast.all fun e => !isTerminalEvent e

/-- The phase pairs traversed while a list of events is processed. -/
def eventPairs (p : GenerationPhase) :
    List SSEEvent → List (GenerationPhase × GenerationPhase)
  | [] => []
  | e :: rest =>
      (p, phaseAfterEvent p e) :: eventPairs (phaseAfterEvent p e) rest

/-- The phase pairs one step traverses (per event for a read; one pair for
the other steps). -/
def stepPairs (parse : List Char → Option SSEEvent) (st : ConsumerState) :
    RunStep → List (GenerationPhase × GenerationPhase)
  | .readData s =>
      eventPairs st.phase (eventsOfParts parse (feed st.buffer s).1)
  | a => [(st.phase, (stepRun parse st a).phase)]

/-- All phase pairs a trace traverses, in order. -/
def tracePairs (parse : List Char → Option SSEEvent) (st : ConsumerState) :
    List RunStep → List (GenerationPhase × GenerationPhase)
  | [] => []
  | a :: rest => stepPairs parse st a ++ tracePairs parse (stepRun parse st a) rest

/-- The transition list of the claim (the spec's consumer contract),
verbatim: idle→connecting, connecting→running, running→completed,
running→error, running→cancelled, connecting→cancelled. -/
def claimedTransitions : List (GenerationPhase × GenerationPhase) :=
  [(.idle, .connecting), (.connecting, .running), (.running, .completed),
   (.running, .error), (.running, .cancelled), (.connecting, .cancelled)]

/-- The transitions the code actually takes: the claimed ones plus
connecting→error (non-success response / transport failure while connecting)
and completed→error (transport failure after the completed event). -/
def amendedTransitions : List (GenerationPhase × GenerationPhase) :=
  claimedTransitions ++ [(.connecting, .error), (.completed, .error)]

theorem handleEvent_phase (st : ConsumerState) (e : SSEEvent) :
    (handleEvent st e).phase = phaseAfterEvent st.phase e := by
  cases he : e.type with
  | chunk =>
      cases ht : e.text with
      | none => simp [handleEvent, he, ht, phaseAfterEvent]
      | some t =>
          by_cases h0 : t = "" <;> simp [handleEvent, he, ht, h0, phaseAfterEvent]
  | started => simp [handleEvent, he, phaseAfterEvent]
  | progress =>
      cases hp : e.percent <;> cases hm : e.message
      · simp [handleEvent, he, hp, hm, phaseAfterEvent]
      · rename_i m
        by_cases h0 : m = "" <;>
          simp [handleEvent, he, hp, hm, h0, phaseAfterEvent]
      · simp [handleEvent, he, hp, hm, phaseAfterEvent]
      · rename_i p m
        by_cases h0 : m = "" <;>
          simp [handleEvent, he, hp, hm, h0, phaseAfterEvent]
  | completed => simp [handleEvent, he, phaseAfterEvent]
  | error => simp [handleEvent, he, phaseAfterEvent]

theorem handleEvent_streaming_aborted (st : ConsumerState) (e : SSEEvent) :
    (handleEvent st e).streaming = st.streaming
    ∧ (handleEvent st e).aborted = st.aborted := by
  cases he : e.type with
  | chunk =>
      cases ht : e.text with
      | none => simp [handleEvent, he, ht]
      | some t => by_cases h0 : t = "" <;> simp [handleEvent, he, ht, h0]
  | started => simp [handleEvent, he]
  | progress =>
      cases hp : e.percent <;> cases hm : e.message
      · simp [handleEvent, he, hp, hm]
      · rename_i m
        by_cases h0 : m = "" <;> simp [handleEvent, he, hp, hm, h0]
      · simp [handleEvent, he, hp, hm]
      · rename_i p m
        by_cases h0 : m = "" <;> simp [handleEvent, he, hp, hm, h0]
  | completed => simp [handleEvent, he]
  | error => simp [handleEvent, he]

theorem procEvents_phase : ∀ (evs : List SSEEvent) (st : ConsumerState),
    (procEvents st evs).phase = evs.foldl phaseAfterEvent st.phase := by
  intro evs
  induction evs with
  | nil => intro st; rfl
  | cons e rest ih =>
      intro st
      simp only [procEvents, List.foldl_cons]
      rw [show List.foldl handleEvent (handleEvent st e) rest
            = procEvents (handleEvent st e) rest from rfl]
      rw [ih, handleEvent_phase]

theorem procEvents_streaming_aborted :
    ∀ (evs : List SSEEvent) (st : ConsumerState),
      (procEvents st evs).streaming = st.streaming
      ∧ (procEvents st evs).aborted = st.aborted := by
  intro evs
  induction evs with
  | nil => intro st; exact ⟨rfl, rfl⟩
  | cons e rest ih =>
      intro st
      simp only [procEvents, List.foldl_cons]
      have h1 := ih (handleEvent st e)
      have h2 := handleEvent_streaming_aborted st e
      exact ⟨h1.1.trans h2.1, h1.2.trans h2.2⟩

theorem phaseAfterEvent_nonterminal (p : GenerationPhase) (e : SSEEvent)
    (h : isTerminalEvent e = false) : phaseAfterEvent p e = p := by
  cases he : e.type <;> simp [isTerminalEvent, he] at h ⊢ <;>
    simp [phaseAfterEvent, he]

theorem foldl_phase_nonterminal :
    ∀ (evs : List SSEEvent) (p : GenerationPhase),
      (∀ e ∈ evs, isTerminalEvent e = false) →
      evs.foldl phaseAfterEvent p = p := by
  intro evs
  induction evs with
  | nil => intro p _; rfl
  | cons e rest ih =>
      intro p h
      simp only [List.foldl_cons]
      rw [phaseAfterEvent_nonterminal p e (h e (by simp))]
      exact ih p (fun f hf => h f (List.mem_cons_of_mem _ hf))

theorem foldl_phase_mem :
    ∀ (evs : List SSEEvent) (p : GenerationPhase),
      (p = .running ∨ p = .completed ∨ p = .error) →
      (evs.foldl phaseAfterEvent p = .running
        ∨ evs.foldl phaseAfterEvent p = .completed
        ∨ evs.foldl phaseAfterEvent p = .error) := by
  intro evs
  induction evs with
  | nil => intro p h; exact h
  | cons e rest ih =>
      intro p h
      simp only [List.foldl_cons]
      apply ih
      cases he : e.type <;> simp [phaseAfterEvent, he] <;> tauto

theorem conformant_append_right (a b : List SSEEvent)
    (h : conformant (a ++ b) = true) : conformant b = true := by
  by_cases hb : b = []
  · subst hb; rfl
  · rw [conformant, List.dropLast_append_of_ne_nil a hb, List.all_append,
      Bool.and_eq_true] at h
    exact h.2

theorem conformant_left_dropLast (a b : List SSEEvent)
    (h : conformant (a ++ b) = true) :
    ∀ e ∈ a.dropLast, isTerminalEvent e = false := by
  intro e he
  by_cases hb : b = []
  · subst hb
    rw [List.append_nil] at h
    have := List.all_eq_true.mp h e he
    simpa using this
  · rw [conformant, List.dropLast_append_of_ne_nil a hb, List.all_append,
      Bool.and_eq_true] at h
    have := List.all_eq_true.mp h.1 e (List.dropLast_subset a he)
    simpa using this

theorem conformant_terminal_imp_nil (a b : List SSEEvent)
    (h : conformant (a ++ b) = true) (e : SSEEvent) (he : e ∈ a)
    (ht : isTerminalEvent e = true) : b = [] := by
  by_contra hb
  rw [conformant, List.dropLast_append_of_ne_nil a hb, List.all_append,
    Bool.and_eq_true] at h
  have := List.all_eq_true.mp h.1 e he
  simp [ht] at this

theorem eventPairs_running :
    ∀ (evs : List SSEEvent),
      (∀ e ∈ evs.dropLast, isTerminalEvent e = false) →
      ∀ pq ∈ eventPairs .running evs, pq.1 ≠ pq.2 →
        pq ∈ amendedTransitions := by
  intro evs
  induction evs with
  | nil => intro _ pq hpq; simp [eventPairs] at hpq
  | cons e rest ih =>
      intro h pq hpq hne
      simp only [eventPairs, List.mem_cons] at hpq
      rcases hpq with heq | hmem
      · subst heq
        cases he : e.type
        · simp [phaseAfterEvent, he] at hne
        · simp [phaseAfterEvent, he] at hne
        · simp [phaseAfterEvent, he] at hne
        · simp only [phaseAfterEvent, he]
          decide
        · simp only [phaseAfterEvent, he]
          decide
      · cases hrest : rest with
        | nil => subst hrest; simp [eventPairs] at hmem
        | cons f fs =>
            have hterm : isTerminalEvent e = false := by
              apply h e
              rw [hrest]
              simp
            have hpe : phaseAfterEvent .running e = .running :=
              phaseAfterEvent_nonterminal _ e hterm
            rw [hpe] at hmem
            refine ih ?_ pq hmem hne
            intro f' hf'
            apply h f'
            rw [hrest] at hf' ⊢
            simpa using List.mem_cons_of_mem e hf'

/-- Reachability invariant of the run machine: an abort implies phase
cancelled, and a live read loop implies the phase is running, completed,
error, or cancelled-after-abort. -/
def MachineInv (st : ConsumerState) : Prop :=
  (st.aborted = true → st.phase = .cancelled)
  ∧ (st.streaming = true →
      st.phase = .running ∨ st.phase = .completed ∨ st.phase = .error
      ∨ (st.phase = .cancelled ∧ st.aborted = true))

theorem trace_pairs_amended (parse : List Char → Option SSEEvent) :
    ∀ (steps : List RunStep) (st : ConsumerState),
      validTrace parse st steps = true →
      MachineInv st →
      (st.streaming = true → st.aborted = false → st.phase ≠ .running →
        evTrace parse st steps = []) →
      conformant (evTrace parse st steps) = true →
      ∀ pq ∈ tracePairs parse st steps, pq.1 ≠ pq.2 →
        pq ∈ amendedTransitions := by
  intro steps
  induction steps with
  | nil => intro st _ _ _ _ pq hpq; simp [tracePairs] at hpq
  | cons a rest ih =>
      intro st hv hinv h3 hc pq hpq hne
      simp only [validTrace, Bool.and_eq_true] at hv
      obtain ⟨hstep, hrest⟩ := hv
      simp only [tracePairs, List.mem_append] at hpq
      have hcdec : evTrace parse st (a :: rest)
          = evStep parse st a ++ evTrace parse (stepRun parse st a) rest := rfl
      have hcrest : conformant (evTrace parse (stepRun parse st a) rest)
          = true := by
        rw [hcdec] at hc
        exact conformant_append_right _ _ hc
      cases a with
      | start =>
          simp only [validStep, decide_eq_true_eq] at hstep
          rcases hpq with h | h
          · simp only [stepPairs, stepRun, List.mem_singleton] at h
            subst h
            rw [hstep]
            decide
          · refine ih _ hrest ⟨?_, ?_⟩ ?_ hcrest pq h hne
            · intro hab; simp [stepRun] at hab
            · intro hs; simp [stepRun] at hs
            · intro hs; simp [stepRun] at hs
      | respOk =>
          simp only [validStep, decide_eq_true_eq] at hstep
          have hab : st.aborted = false := by
            cases habs : st.aborted
            · rfl
            · have := hinv.1 habs
              rw [hstep] at this
              cases this
          rcases hpq with h | h
          · simp only [stepPairs, stepRun, List.mem_singleton] at h
            subst h
            rw [hstep]
            decide
          · refine ih _ hrest ⟨?_, ?_⟩ ?_ hcrest pq h hne
            · intro habs; simp [stepRun, hab] at habs
            · intro _; left; simp [stepRun]
            · intro _ _ hnr; exact absurd (by simp [stepRun]) hnr
      | respErr msg =>
          simp only [validStep, decide_eq_true_eq] at hstep
          rcases hpq with h | h
          · simp only [stepPairs, stepRun, List.mem_singleton] at h
            subst h
            rw [hstep]
            decide
          · have hab : st.aborted = false := by
              cases habs : st.aborted
              · rfl
              · have := hinv.1 habs
                rw [hstep] at this
                cases this
            refine ih _ hrest ⟨?_, ?_⟩ ?_ hcrest pq h hne
            · intro habs; simp [stepRun, hab] at habs
            · intro hs; simp [stepRun] at hs
            · intro hs; simp [stepRun] at hs
      | readData s =>
          simp only [validStep, Bool.and_eq_true, Bool.not_eq_true'] at hstep
          obtain ⟨hsg, hab⟩ := hstep
          have hphase := hinv.2 hsg
          have hph3 : st.phase = .running ∨ st.phase = .completed
              ∨ st.phase = .error := by
            rcases hphase with h | h | h | ⟨_, habs⟩
            · exact Or.inl h
            · exact Or.inr (Or.inl h)
            · exact Or.inr (Or.inr h)
            · rw [hab] at habs; cases habs
          -- the state after this read
          have hsa := procEvents_streaming_aborted
            (eventsOfParts parse (feed st.buffer s).1)
            { st with buffer := (feed st.buffer s).2 }
          have hps : (stepRun parse st (.readData s)).streaming = true := by
            simpa [stepRun] using hsa.1.trans (show st.streaming = true from hsg)
          have hpa : (stepRun parse st (.readData s)).aborted = false := by
            simpa [stepRun] using hsa.2.trans (show st.aborted = false from hab)
          have hphafter : (stepRun parse st (.readData s)).phase
              = (eventsOfParts parse (feed st.buffer s).1).foldl
                  phaseAfterEvent st.phase := by
            simpa [stepRun] using procEvents_phase
              (eventsOfParts parse (feed st.buffer s).1)
              { st with buffer := (feed st.buffer s).2 }
          by_cases hrun : st.phase = .running
          · -- events can flow; conformance bounds the pairs
            have hdl : ∀ e ∈ (eventsOfParts parse (feed st.buffer s).1).dropLast,
                isTerminalEvent e = false := by
              rw [hcdec] at hc
              exact conformant_left_dropLast _ _ hc
            rcases hpq with h | h
            · simp only [stepPairs] at h
              rw [hrun] at h
              exact eventPairs_running _ hdl pq h hne
            · refine ih _ hrest ⟨?_, ?_⟩ ?_ hcrest pq h hne
              · intro habs; rw [hpa] at habs; cases habs
              · intro _
                rw [hphafter]
                rcases foldl_phase_mem (eventsOfParts parse (feed st.buffer s).1)
                  st.phase (Or.inl hrun) with h' | h' | h'
                · exact Or.inl h'
                · exact Or.inr (Or.inl h')
                · exact Or.inr (Or.inr (Or.inl h'))
              · intro _ _ hnr
                rw [hphafter] at hnr
                have hex : ∃ e ∈ eventsOfParts parse (feed st.buffer s).1,
                    isTerminalEvent e = true := by
                  by_contra hno
                  push_neg at hno
                  have hall : ∀ e ∈ eventsOfParts parse (feed st.buffer s).1,
                      isTerminalEvent e = false := by
                    intro e he
                    cases hb : isTerminalEvent e
                    · rfl
                    · exact absurd hb (hno e he)
                  exact hnr ((foldl_phase_nonterminal _ _ hall).trans hrun)
                obtain ⟨e, he, hterm⟩ := hex
                rw [hcdec] at hc
                exact conformant_terminal_imp_nil _ _ hc e he hterm
          · -- the phase is already terminal: the hypothesis gives no events
            have hev0 : evTrace parse st (RunStep.readData s :: rest) = [] :=
              h3 hsg hab hrun
            rw [hcdec] at hev0
            have hev0' := List.append_eq_nil.mp hev0
            have hev1 : eventsOfParts parse (feed st.buffer s).1 = [] := hev0'.1
            rcases hpq with h | h
            · simp only [stepPairs] at h
              rw [hev1] at h
              simp [eventPairs] at h
            · refine ih _ hrest ⟨?_, ?_⟩ ?_ hcrest pq h hne
              · intro habs; rw [hpa] at habs; cases habs
              · intro _
                rw [hphafter, hev1, List.foldl_nil]
                rcases hph3 with h' | h' | h'
                · exact absurd h' hrun
                · exact Or.inr (Or.inl h')
                · exact Or.inr (Or.inr (Or.inl h'))
              · intro _ _ _
                exact hev0'.2
      | readFail msg =>
          simp only [validStep, Bool.and_eq_true, Bool.not_eq_true'] at hstep
          obtain ⟨hsg, hab⟩ := hstep
          have hphase := hinv.2 hsg
          rcases hpq with h | h
          · simp only [stepPairs, stepRun, List.mem_singleton] at h
            subst h
            rcases hphase with h' | h' | h' | ⟨_, habs⟩
            · rw [h']; decide
            · rw [h']; decide
            · rw [h'] at hne ⊢
              simp at hne
            · rw [hab] at habs; cases habs
          · refine ih _ hrest ⟨?_, ?_⟩ ?_ hcrest pq h hne
            · intro habs; simp [stepRun, hab] at habs
            · intro hs; simp [stepRun] at hs
            · intro hs; simp [stepRun] at hs
      | eof =>
          simp only [validStep, Bool.and_eq_true, Bool.not_eq_true'] at hstep
          obtain ⟨hsg, hab⟩ := hstep
          rcases hpq with h | h
          · simp only [stepPairs, stepRun, List.mem_singleton] at h
            subst h
            simp at hne
          · refine ih _ hrest ⟨?_, ?_⟩ ?_ hcrest pq h hne
            · intro habs; simp [stepRun, hab] at habs
            · intro hs; simp [stepRun] at hs
            · intro hs; simp [stepRun] at hs
      | canc =>
          simp only [validStep, Bool.or_eq_true, decide_eq_true_eq] at hstep
          rcases hpq with h | h
          · simp only [stepPairs, stepRun, List.mem_singleton] at h
            subst h
            rcases hstep with h' | h' <;> rw [h'] <;> decide
          · refine ih _ hrest ⟨?_, ?_⟩ ?_ hcrest pq h hne
            · intro _; simp [stepRun]
            · intro _
              right; right; right
              exact ⟨by simp [stepRun], by simp [stepRun]⟩
            · intro _ habs
              simp [stepRun] at habs
      | abortReject =>
          simp only [validStep] at hstep
          have hcanc := hinv.1 hstep
          rcases hpq with h | h
          · simp only [stepPairs, stepRun, List.mem_singleton] at h
            subst h
            rw [hcanc] at hne
            simp at hne
          · refine ih _ hrest ⟨?_, ?_⟩ ?_ hcrest pq h hne
            · intro _; simp [stepRun]
            · intro hs; simp [stepRun] at hs
            · intro hs; simp [stepRun] at hs

/-- Counterexample to C5 as stated: a valid conformant run in which the
server answers with a non-success status takes the transition
connecting→error, which the claim's transition list does not contain
(the claim allows error only from running). -/
theorem consumer_transition_list_counterexample :
    validTrace toyParse initState
        [RunStep.start, RunStep.respErr "Server returned 500: "] = true
    ∧ conformant (evTrace toyParse initState
        [RunStep.start, RunStep.respErr "Server returned 500: "]) = true
    ∧ (GenerationPhase.connecting, GenerationPhase.error)
        ∈ tracePairs toyParse initState
            [RunStep.start, RunStep.respErr "Server returned 500: "]
    ∧ (GenerationPhase.connecting, GenerationPhase.error)
        ∉ claimedTransitions := by
  refine ⟨by decide, by decide, by decide, by decide⟩

/-- C5 amended: the consumer maintains the phase machine over
{idle, connecting, running, completed, error, cancelled} with initial state
idle, and over every valid protocol-conformant run its only transitions are
the claimed ones — idle→connecting, connecting→running, running→completed,
running→error, running→cancelled, connecting→cancelled — plus
connecting→error on a transport-level failure while connecting and
completed→error when the transport fails after the completed event. -/
theorem consumer_transitions_in_amended_list
    (parse : List Char → Option SSEEvent) (steps : List RunStep)
    (hv : validTrace parse initState steps = true)
    (hc : conformant (evTrace parse initState steps) = true) :
    ∀ pq ∈ tracePairs parse initState steps, pq.1 ≠ pq.2 →
      pq ∈ amendedTransitions := by
  refine trace_pairs_amended parse steps initState hv ⟨?_, ?_⟩ ?_ hc
  · intro h; simp [initState] at h
  · intro h; simp [initState] at h
  · intro h; simp [initState] at h

/-- Witness for the amended C5: a complete successful run takes the
transition running→completed, and that pair is in the amended list. -/
theorem consumer_transitions_in_amended_list_witness :
    (GenerationPhase.running, GenerationPhase.completed)
      ∈ amendedTransitions := by
  have h := consumer_transitions_in_amended_list toyParse
    [RunStep.start, RunStep.respOk,
     RunStep.readData "data: S\n\ndata: D\n\n".toList, RunStep.eof]
    (by decide) (by decide)
  exact h (.running, .completed) (by decide) (by decide)

/-! ## Review workflow (submission detail page)

The review records and the client operations of the detail page.  The review
PATCH / create endpoints live in the backend, which is not part of this
repository's sources; they are modelled from the spec where marked. -/

structure Review where
  id : Nat
  review_round : Nat
  reviewer_name : String
  status : String
  overall_progress : Nat
  overall_notes : String
  abandoned : Bool
  checklist : List ChecklistItem
deriving DecidableEq, Repr

/-- The Approve / Request-Revision buttons are rendered whenever a review is
loaded — no guard on status or completion percent. -/
def reviewButtonsShown (activeReview : Option Review) : Bool :=
  activeReview.isSome

/-- Modelled from the spec: the review PATCH endpoint (backend code, absent
from the repository).  §4.4: approval/rejection is allowed from any
non-terminal state regardless of completion percent; approved/rejected are
terminal. -/
def applyReviewPatch (r : Review) (newStatus : String) (notes : String) :
    Option Review :=
  if r.status = "approved" ∨ r.status = "rejected" then none
  else some { r with status := newStatus, overall_notes := notes }

/-- The client merge after a checklist item PATCH (`handleChecklistUpdate`):
replace the item, recompute the derived progress; the review status is not
touched. -/
def clientChecklistMerge (r : Review) (itemId : Nat)
    (updated : ChecklistItem) : Review :=
  let newChecklist := r.checklist.map fun c =>
    if c.id = itemId then updated else c
  { r with
    checklist := newChecklist
    overall_progress := recomputeProgress newChecklist }

/-- C8: for a review in a non-terminal state (draft or active) and any overall
completion percent, the approve and reject actions are available and succeed,
setting the terminal status; and a checklist update — whatever percent it
produces, including 100 — never changes the status: terminal status comes
only from the explicit reviewer action. -/
theorem approval_never_blocked_by_percent (r : Review) (p : Nat)
    (h : r.status = "draft" ∨ r.status = "active") :
    reviewButtonsShown (some { r with overall_progress := p }) = true
    ∧ (∃ ra, applyReviewPatch { r with overall_progress := p } "approved"
          "Submission approved after review" = some ra
        ∧ ra.status = "approved")
    ∧ (∃ rr, applyReviewPatch { r with overall_progress := p } "rejected"
          "Revision required - see checklist notes" = some rr
        ∧ rr.status = "rejected")
    ∧ ∀ (itemId : Nat) (updated : ChecklistItem),
        (clientChecklistMerge { r with overall_progress := p } itemId
          updated).status = r.status := by
  have hnt : ¬(({ r with overall_progress := p } : Review).status = "approved"
      ∨ ({ r with overall_progress := p } : Review).status = "rejected") := by
    rcases h with h | h <;> simp [h]
  refine ⟨rfl, ?_, ?_, ?_⟩
  · exact ⟨_, by rw [applyReviewPatch, if_neg hnt], rfl⟩
  · exact ⟨_, by rw [applyReviewPatch, if_neg hnt], rfl⟩
  · intro itemId updated
    rfl

/-- A concrete review for witnesses. -/
def sampleReview : Review :=
  { id := 1
    review_round := 1
    reviewer_name := "Kevin Admin"
    status := "draft"
    overall_progress := 0
    overall_notes := ""
    abandoned := false
    checklist := [] }

/-- Witness for C8: a draft review at 100 percent completion can still be
approved, and a checklist update leaves its status draft. -/
theorem approval_never_blocked_by_percent_witness :
    (applyReviewPatch { sampleReview with overall_progress := 100 } "approved"
        "Submission approved after review").isSome = true
    ∧ (clientChecklistMerge { sampleReview with overall_progress := 100 } 1
        (sampleItem 1 true (some 100))).status = "draft" := by
  have h := approval_never_blocked_by_percent sampleReview 100 (Or.inl rfl)
  constructor
  · obtain ⟨ra, hra, _⟩ := h.2.1
    rw [hra]
    rfl
  · exact h.2.2.2 1 (sampleItem 1 true (some 100))

/-! ### Review rounds (C9) -/

/-- The 20 checklist items seeded at review creation (§3), all incomplete. -/
def seedChecklist : List ChecklistItem :=
  (List.range 20).map fun i => sampleItem (i + 1) true (some 0)

/-- A round that no longer blocks a new one: terminal or abandoned. -/
def roundClosed (r : Review) : Bool :=
  r.status = "approved" || r.status = "rejected" || r.abandoned

/-- Modelled from the spec: the review-creation endpoint (backend code,
absent from the repository).  §4.4: a new round may be started only after the
prior round (if any) reached a terminal state or was abandoned.  The round
number is the one the client posts (`handleCreateReview` sends
`reviews.length + 1`). -/
def backendCreateReview (existing : List Review) (reviewer : String)
    (round : Nat) : Option Review :=
  if existing.all roundClosed then
    some { id := existing.length + 1
           review_round := round
           reviewer_name := reviewer
           status := "draft"
           overall_progress := 0
           overall_notes := ""
           abandoned := false
           checklist := seedChecklist }
  else none

inductive ReviewOp
  /-- `handleCreateReview`: posts `review_round: reviews.length + 1` and
  appends the created review. -/
  | createReview
  /-- The review PATCH (approve / request revision) applied to round `i`. -/
  | close (i : Nat) (newStatus : String)
  /-- Abandoning round `i` (spec §4.4). -/
  | abandon (i : Nat)
deriving DecidableEq, Repr

def applyReviewOp (rs : List Review) : ReviewOp → List Review
  | .createReview =>
      match backendCreateReview rs "Kevin Admin" (rs.length + 1) with
      | some rev => rs ++ [rev]
      | none => rs
  | .close i ns =>
      match rs.get? i with
      | some r =>
          match applyReviewPatch r ns ("notes") with
          | some r' => rs.set i r'
          | none => rs
      | none => rs
  | .abandon i =>
      match rs.get? i with
      | some r => rs.set i { r with abandoned := true }
      | none => rs

theorem map_round_set (rs : List Review) :
    ∀ (i : Nat) (r r' : Review), rs.get? i = some r →
      r'.review_round = r.review_round →
      (rs.set i r').map Review.review_round = rs.map Review.review_round := by
  induction rs with
  | nil => intro i r r' h _; simp at h
  | cons x xs ih =>
      intro i r r' h hr
      cases i with
      | zero =>
          simp only [List.get?] at h
          injection h with h
          subst h
          simp [List.set, hr]
      | succ j =>
          simp only [List.get?] at h
          simp [List.set, ih j r r' h hr]

theorem round_inv_preserved (op : ReviewOp) (rs : List Review)
    (h : rs.map Review.review_round = List.range' 1 rs.length) :
    (applyReviewOp rs op).map Review.review_round
      = List.range' 1 (applyReviewOp rs op).length := by
  cases op with
  | createReview =>
      simp only [applyReviewOp, backendCreateReview]
      by_cases hall : rs.all roundClosed
      · rw [if_pos hall]
        simp only [List.map_append, List.length_append, List.map_cons,
          List.map_nil, List.length_cons, List.length_nil]
        rw [h]
        rw [show rs.length + (0 + 1) = rs.length + 1 from by omega]
        rw [List.range'_1_concat]
        simp [Nat.add_comm]
      · rw [if_neg hall]
        exact h
  | close i ns =>
      simp only [applyReviewOp]
      cases hg : rs.get? i with
      | none => exact h
      | some r =>
          dsimp only
          cases hp : applyReviewPatch r ns "notes" with
          | none => exact h
          | some r' =>
              dsimp only
              have hr : r'.review_round = r.review_round := by
                rw [applyReviewPatch] at hp
                split at hp
                · cases hp
                · injection hp with hp
                  subst hp
                  rfl
              rw [map_round_set rs i r r' hg hr, List.length_set]
              exact h
  | abandon i =>
      simp only [applyReviewOp]
      cases hg : rs.get? i with
      | none => exact h
      | some r =>
          dsimp only
          rw [map_round_set rs i r { r with abandoned := true } hg rfl,
            List.length_set]
          exact h

/-- C9: a new review round is accepted only when every prior round is
terminal or abandoned, and for every sequence of operations from a fresh
submission the assigned round numbers are exactly 1, 2, …, n — strictly
increasing and never reused. -/
theorem review_rounds_monotonic_and_guarded :
    (∀ (existing : List Review) (reviewer : String) (round : Nat) (r : Review),
      backendCreateReview existing reviewer round = some r →
        (∀ p ∈ existing, roundClosed p = true) ∧ r.review_round = round)
    ∧ ∀ ops : List ReviewOp,
        (ops.foldl applyReviewOp []).map Review.review_round
          = List.range' 1 (ops.foldl applyReviewOp []).length := by
  constructor
  · intro existing reviewer round r hcr
    rw [backendCreateReview] at hcr
    split at hcr
    · rename_i hall
      refine ⟨fun p hp => List.all_eq_true.mp hall p hp, ?_⟩
      injection hcr with hcr
      subst hcr
      rfl
    · cases hcr
  · have main : ∀ (ops : List ReviewOp) (rs : List Review),
        rs.map Review.review_round = List.range' 1 rs.length →
        (ops.foldl applyReviewOp rs).map Review.review_round
          = List.range' 1 (ops.foldl applyReviewOp rs).length := by
      intro ops
      induction ops with
      | nil => intro rs h; exact h
      | cons op rest ih =>
          intro rs h
          simp only [List.foldl_cons]
          exact ih _ (round_inv_preserved op rs h)
    intro ops
    exact main ops [] (by simp)

/-- The review created for a fresh submission. -/
def firstRoundReview : Review :=
  { id := 1
    review_round := 1
    reviewer_name := "Kevin Admin"
    status := "draft"
    overall_progress := 0
    overall_notes := ""
    abandoned := false
    checklist := seedChecklist }

/-- Witness for C9: the first round gets round number 1, and after approving
it and starting a second round the rounds are exactly `[1, 2]`. -/
theorem review_rounds_monotonic_and_guarded_witness :
    firstRoundReview.review_round = 1
    ∧ ([ReviewOp.createReview, ReviewOp.close 0 "approved",
        ReviewOp.createReview].foldl applyReviewOp []).map Review.review_round
      = List.range' 1 2 := by
  refine ⟨(review_rounds_monotonic_and_guarded.1 [] "Kevin Admin" 1
    firstRoundReview (by rfl)).2, ?_⟩
  have h := review_rounds_monotonic_and_guarded.2
    [ReviewOp.createReview, ReviewOp.close 0 "approved", ReviewOp.createReview]
  have hlen : ([ReviewOp.createReview, ReviewOp.close 0 "approved",
      ReviewOp.createReview].foldl applyReviewOp []).length = 2 := by decide
  rw [h, hlen]

end WellDoc
